import Mathlib

/-!
Verification of the melonix core (src/app.cpp).

The C++ code is shallowly embedded: C++ `double` arithmetic is modelled by
exact rational arithmetic (`ℚ`), C++ `int`/`size_t` by `ℤ`/`ℕ`, and the
conversion `static_cast<int>(double)` by truncation toward zero (`truncI`).
While loops are modelled by fuel-indexed structural recursion; the fuel is
always chosen large enough to cover the loop in the situations the theorems
speak about.
-/

/-- Marker record from app.hpp as used by src/app.cpp: recording-sample
position, displayed note, extra time offset accumulated before the marker,
and the pitch bend (semitones) applied at the marker. -/
structure Marker where
  sample : ℤ
  note : ℚ
  dTime : ℚ
  pitchBend : ℚ
  deriving DecidableEq

/-- Truncation toward zero, modelling the C++ conversion from `double` to a
signed integer type. -/
def truncI (q : ℚ) : ℤ := if 0 ≤ q then ⌊q⌋ else ⌈q⌉

/-- Marker walk of `App::sample2Time` (src/app.cpp lines 990-1007): the
accumulator `ps`/`pt` holds `prevSample`/`prevTime`; each step computes
`rightTime` and either interpolates inside the bracketing interval or
advances. -/
def s2tAux (sr : ℚ) (val : ℤ) : ℤ → ℚ → List Marker → ℚ
  | ps, pt, [] => pt + ((val : ℚ) - (ps : ℚ)) / sr
  | ps, pt, m :: rest =>
    let rt := pt + ((m.sample : ℚ) - (ps : ℚ)) / sr + m.dTime
    if ps < val ∧ val ≤ m.sample then
      pt + ((val : ℚ) - (ps : ℚ)) * (rt - pt) / ((m.sample : ℚ) - (ps : ℚ))
    else s2tAux sr val m.sample rt rest

/-- `App::sample2Time` (src/app.cpp lines 979-1008), the pure (cache-free)
function: maps a recording sample index to edited time. -/
def sample2Time (sr : ℚ) (ms : List Marker) (val : ℤ) : ℚ :=
  if val ≤ 0 then (val : ℚ) / sr else s2tAux sr val 0 0 ms

/-- `App::duration` (src/app.cpp lines 1041-1044): edited time of the last
sample of the loaded buffer. -/
def duration (sr : ℚ) (ms : List Marker) (dataSize : ℤ) : ℚ :=
  sample2Time sr ms (dataSize - 1)

/-- Marker walk of `App::time2Sample` (src/app.cpp lines 1021-1038). The
result is converted to `int` at every return site, hence `truncI`. -/
def t2sAux (sr : ℚ) (val : ℚ) : ℤ → ℚ → List Marker → ℤ
  | ps, pt, [] => truncI ((ps : ℚ) + (val - pt) * sr)
  | ps, pt, m :: rest =>
    let rt := pt + ((m.sample : ℚ) - (ps : ℚ)) / sr + m.dTime
    if pt < val ∧ val ≤ rt then
      truncI ((ps : ℚ) + (val - pt) * ((m.sample : ℚ) - (ps : ℚ)) / (rt - pt))
    else t2sAux sr val m.sample rt rest

/-- `App::time2Sample` (src/app.cpp lines 1010-1039), the pure (cache-free)
function: maps an edited time to a recording sample index. -/
def time2Sample (sr : ℚ) (ms : List Marker) (val : ℚ) : ℤ :=
  if val ≤ 0 then truncI (val * sr) else t2sAux sr val 0 0 ms

/-- Marker walk of `App::time2PitchBend` (src/app.cpp lines 1054-1076),
carrying `prevSample`, `prevTime` and `prevPitchBend`; after the last marker
the code returns 0 past `duration()` and otherwise decays linearly to 0 at
`duration()`. -/
def t2pbAux (sr : ℚ) (val dur : ℚ) : ℤ → ℚ → ℚ → List Marker → ℚ
  | _, pt, ppb, [] =>
    if dur < val then 0 else ppb + (val - pt) * (0 - ppb) / (dur - pt)
  | ps, pt, ppb, m :: rest =>
    let rt := pt + ((m.sample : ℚ) - (ps : ℚ)) / sr + m.dTime
    if pt < val ∧ val ≤ rt then
      ppb + (val - pt) * (m.pitchBend - ppb) / (rt - pt)
    else t2pbAux sr val dur m.sample rt m.pitchBend rest

/-- `App::time2PitchBend` (src/app.cpp lines 1046-1077), the pure
(cache-free) function: maps an edited time to a semitone offset. -/
def time2PitchBend (sr : ℚ) (ms : List Marker) (dataSize : ℤ) (val : ℚ) : ℚ :=
  if val ≤ 0 then 0 else t2pbAux sr val (duration sr ms dataSize) 0 0 0 ms

/-- Helper: with no markers, `sample2Time` is plain scaling by the sample
rate. -/
theorem sample2Time_nil (sr : ℚ) (v : ℤ) : sample2Time sr [] v = (v : ℚ) / sr := by
  unfold sample2Time s2tAux
  split <;> simp

/-- Helper: with no markers, `time2Sample` truncates `val * sr`. -/
theorem time2Sample_nil (sr : ℚ) (t : ℚ) : time2Sample sr [] t = truncI (t * sr) := by
  unfold time2Sample t2sAux
  split <;> simp [mul_comm]

/-- Helper: truncation toward zero of a rational is within one of it. -/
theorem abs_truncI_sub_lt_one (q : ℚ) : |((truncI q : ℤ) : ℚ) - q| < 1 := by
  unfold truncI
  split
  · rw [abs_sub_lt_iff]
    constructor
    · have := Int.floor_le q
      linarith
    · have := Int.lt_floor_add_one q
      linarith
  · rw [abs_sub_lt_iff]
    constructor
    · have := Int.ceil_lt_add_one q
      linarith
    · have := Int.le_ceil q
      linarith

/-- Helper: truncation of an integer is itself. -/
theorem truncI_intCast (n : ℤ) : truncI (n : ℚ) = n := by
  unfold truncI
  split <;> simp

/-- C3 counterexample: with sampleRate 10 and a single marker at sample 10
with dTime 1, the code maps sample 5 to edited time 1, not to 5/10 = 0.5:
before the first marker the interval is stretched by the marker's dTime, so
the mapping is not identity scaling `regardless of dTime`. -/
theorem c3_not_identity_with_dtime :
    sample2Time 10 [⟨10, 0, 1, 0⟩] 5 = 1 ∧ ((1 : ℚ) ≠ (5 : ℚ) / 10) := by
  constructor
  · norm_num [sample2Time, s2tAux]
  · norm_num

/-- C3 (amended): for `s ≤ 0`, `sample2Time s = s / sampleRate`; for
`0 < s ≤ firstMarker.sample` the code interpolates linearly from time 0 to
`firstMarker.sample / sampleRate + firstMarker.dTime`, which degenerates to
identity scaling `s / sampleRate` exactly when the first marker's dTime is
zero. -/
theorem c3_scaling_before_first_marker (sr : ℚ) (m : Marker) (rest : List Marker)
    (hsr : 0 < sr) :
    (∀ s : ℤ, s ≤ 0 → sample2Time sr (m :: rest) s = (s : ℚ) / sr) ∧
    (∀ s : ℤ, 0 < s → s ≤ m.sample →
      sample2Time sr (m :: rest) s
        = (s : ℚ) * ((m.sample : ℚ) / sr + m.dTime) / (m.sample : ℚ)) ∧
    (m.dTime = 0 → ∀ s : ℤ, 0 < s → s ≤ m.sample →
      sample2Time sr (m :: rest) s = (s : ℚ) / sr) := by
  have key : ∀ s : ℤ, 0 < s → s ≤ m.sample →
      sample2Time sr (m :: rest) s
        = (s : ℚ) * ((m.sample : ℚ) / sr + m.dTime) / (m.sample : ℚ) := by
    intro s h0 hm
    unfold sample2Time
    rw [if_neg (by omega)]
    unfold s2tAux
    rw [if_pos ⟨h0, hm⟩]
    ring
  refine ⟨?_, key, ?_⟩
  · intro s hs
    unfold sample2Time
    rw [if_pos hs]
  · intro hdt s h0 hm
    rw [key s h0 hm, hdt]
    have hms : (0 : ℚ) < (m.sample : ℚ) := by
      have : (0 : ℤ) < m.sample := lt_of_lt_of_le h0 hm
      exact_mod_cast this
    field_simp
    ring

/-- C3 witness: at sampleRate 10, marker (sample 10, dTime 1), sample 5 the
amended formula gives edited time 1. -/
theorem c3_scaling_before_first_marker_witness :
    (0 : ℚ) < 10 ∧ sample2Time 10 [⟨10, 0, 1, 0⟩] 5
      = (5 : ℚ) * ((10 : ℚ) / 10 + 1) / 10 := by
  refine ⟨by norm_num, ?_⟩
  have h := (c3_scaling_before_first_marker 10 ⟨10, 0, 1, 0⟩ [] (by norm_num)).2.1
    5 (by norm_num) (by norm_num)
  simpa using h

/-- C5 counterexample: with no markers and sampleRate 10, the time 1/20
(half a sample tick) round-trips through `time2Sample` then `sample2Time`
to 0, not back to 1/20: `time2Sample` returns a truncated integer sample
index, so the time-direction round trip is not the identity. -/
theorem c5_time_round_trip_fails :
    sample2Time 10 [] (time2Sample 10 [] (1 / 20)) = 0 ∧ ((0 : ℚ) ≠ 1 / 20) := by
  constructor
  · rw [time2Sample_nil, sample2Time_nil]
    norm_num [truncI]
  · norm_num

/-- C5 (amended): with no markers, `time2Sample (sample2Time s) = s` holds
exactly for every integer sample index, while in the time direction the
round trip returns the query time truncated to the sample grid, so it is
only within one sample period (1/sampleRate) of the identity, not equal. -/
theorem c5_round_trip (sr : ℚ) (hsr : 0 < sr) :
    (∀ s : ℤ, time2Sample sr [] (sample2Time sr [] s) = s) ∧
    (∀ t : ℚ, |sample2Time sr [] (time2Sample sr [] t) - t| < 1 / sr) := by
  have hsr0 : sr ≠ 0 := ne_of_gt hsr
  constructor
  · intro s
    rw [sample2Time_nil, time2Sample_nil, div_mul_cancel₀ _ hsr0, truncI_intCast]
  · intro t
    rw [time2Sample_nil, sample2Time_nil]
    have h := abs_truncI_sub_lt_one (t * sr)
    have heq : ((truncI (t * sr) : ℤ) : ℚ) / sr - t
        = (((truncI (t * sr) : ℤ) : ℚ) - t * sr) / sr := by
      field_simp
      ring
    rw [heq, abs_div, abs_of_pos hsr]
    exact div_lt_div_of_pos_right h hsr

/-- C5 witness: at sampleRate 1 the sample-direction round trip returns 7 on
input 7, and the time-direction round trip of 1/3 is within one sample
period. -/
theorem c5_round_trip_witness :
    time2Sample 1 [] (sample2Time 1 [] 7) = 7 ∧
      |sample2Time 1 [] (time2Sample 1 [] (1 / 3)) - 1 / 3| < 1 / 1 :=
  ⟨(c5_round_trip 1 (by norm_num)).1 7, (c5_round_trip 1 (by norm_num)).2 (1 / 3)⟩

/-- C6: adding the single marker (sample 24000, dTime 1/2, pitchBend 0) to a
buffer of more than 24000 samples increases `duration()` by exactly 1/2
second over the marker-free duration. -/
theorem c6_duration_increase (sr : ℚ) (note : ℚ) (dataSize : ℤ) (hsr : 0 < sr)
    (hds : 24000 < dataSize) :
    duration sr [⟨24000, note, 1 / 2, 0⟩] dataSize = duration sr [] dataSize + 1 / 2 := by
  have hsr0 : sr ≠ 0 := ne_of_gt hsr
  have hv : (24000 : ℤ) ≤ dataSize - 1 := by omega
  unfold duration
  rw [sample2Time_nil]
  unfold sample2Time
  rw [if_neg (by omega)]
  unfold s2tAux
  dsimp only
  rcases eq_or_lt_of_le hv with hv24 | hv24
  · rw [if_pos ⟨by omega, by omega⟩]
    rw [← hv24]
    push_cast
    field_simp
    ring
  · rw [if_neg (by omega)]
    unfold s2tAux
    push_cast
    field_simp
    ring

/-- C6 witness: at sampleRate 10 and 24001 samples, the marked duration is
the unmarked duration plus 1/2. -/
theorem c6_duration_increase_witness :
    duration 10 [⟨24000, 0, 1 / 2, 0⟩] 24001 = duration 10 [] 24001 + 1 / 2 :=
  c6_duration_increase 10 0 24001 (by norm_num) (by norm_num)

/-- Predicate: the marker samples are strictly increasing, starting strictly
above `ps` (the invariant the app maintains by re-sorting on every edit). -/
def MarkersSorted : ℤ → List Marker → Prop
  | _, [] => True
  | ps, m :: rest => ps < m.sample ∧ MarkersSorted m.sample rest

/-- Predicate: every marker interval contributes a nonnegative accumulated
time step `(sample - prevSample)/sr + dTime`, so the accumulated times are
nondecreasing along the walk. -/
def StepsMono (sr : ℚ) : ℤ → List Marker → Prop
  | _, [] => True
  | ps, m :: rest =>
    0 ≤ ((m.sample : ℚ) - (ps : ℚ)) / sr + m.dTime ∧ StepsMono sr m.sample rest

/-- Helper: the sample2Time walk never goes below the accumulated time it
starts from, for query samples beyond the accumulated sample. -/
theorem s2tAux_ge (sr : ℚ) (hsr : 0 < sr) :
    ∀ (ms : List Marker) (ps : ℤ) (pt : ℚ) (v : ℤ), MarkersSorted ps ms →
      StepsMono sr ps ms → ps < v → pt ≤ s2tAux sr v ps pt ms := by
  intro ms
  induction ms with
  | nil =>
    intro ps pt v _ _ hv
    unfold s2tAux
    have h1 : (0 : ℚ) ≤ (v : ℚ) - (ps : ℚ) := by
      have : (ps : ℚ) ≤ (v : ℚ) := by exact_mod_cast le_of_lt hv
      linarith
    have := div_nonneg h1 (le_of_lt hsr)
    linarith
  | cons m rest ih =>
    intro ps pt v hs hm hv
    unfold s2tAux
    dsimp only
    by_cases hbr : ps < v ∧ v ≤ m.sample
    · rw [if_pos hbr]
      have h1 : (0 : ℚ) ≤ (v : ℚ) - (ps : ℚ) := by
        have : (ps : ℚ) ≤ (v : ℚ) := by exact_mod_cast le_of_lt hv
        linarith
      have h2 : (0 : ℚ) ≤ pt + ((m.sample : ℚ) - (ps : ℚ)) / sr + m.dTime - pt := by
        have := hm.1
        linarith
      have h3 : (0 : ℚ) < (m.sample : ℚ) - (ps : ℚ) := by
        have : (ps : ℚ) < (m.sample : ℚ) := by exact_mod_cast hs.1
        linarith
      have := div_nonneg (mul_nonneg h1 h2) (le_of_lt h3)
      linarith
    · rw [if_neg hbr]
      have hvm : m.sample < v := by
        rcases not_and_or.mp hbr with h | h
        · exact absurd hv h
        · omega
      have hrec := ih m.sample (pt + ((m.sample : ℚ) - (ps : ℚ)) / sr + m.dTime) v
        hs.2 hm.2 hvm
      have := hm.1
      linarith

/-- Helper: unfolding equation for the interpolating branch of the
sample2Time walk. -/
theorem s2tAux_cons_pos (sr : ℚ) (val ps : ℤ) (pt : ℚ) (m : Marker)
    (rest : List Marker) (h : ps < val ∧ val ≤ m.sample) :
    s2tAux sr val ps pt (m :: rest)
      = pt + ((val : ℚ) - (ps : ℚ))
          * ((pt + ((m.sample : ℚ) - (ps : ℚ)) / sr + m.dTime) - pt)
          / ((m.sample : ℚ) - (ps : ℚ)) := by
  unfold s2tAux
  dsimp only
  rw [if_pos h]

/-- Helper: unfolding equation for the advancing branch of the sample2Time
walk. -/
theorem s2tAux_cons_neg (sr : ℚ) (val ps : ℤ) (pt : ℚ) (m : Marker)
    (rest : List Marker) (h : ¬ (ps < val ∧ val ≤ m.sample)) :
    s2tAux sr val ps pt (m :: rest)
      = s2tAux sr val m.sample (pt + ((m.sample : ℚ) - (ps : ℚ)) / sr + m.dTime) rest := by
  conv_lhs => unfold s2tAux
  dsimp only
  rw [if_neg h]

/-- Helper: the sample2Time walk is monotone in the query sample, for sorted
markers with nonnegative accumulated time steps. -/
theorem s2tAux_mono (sr : ℚ) (hsr : 0 < sr) :
    ∀ (ms : List Marker) (ps : ℤ) (pt : ℚ) (v1 v2 : ℤ), MarkersSorted ps ms →
      StepsMono sr ps ms → ps < v1 → v1 ≤ v2 →
      s2tAux sr v1 ps pt ms ≤ s2tAux sr v2 ps pt ms := by
  intro ms
  induction ms with
  | nil =>
    intro ps pt v1 v2 _ _ _ h12
    unfold s2tAux
    have hc : ((v1 : ℚ) - (ps : ℚ)) ≤ ((v2 : ℚ) - (ps : ℚ)) := by
      have : (v1 : ℚ) ≤ (v2 : ℚ) := by exact_mod_cast h12
      linarith
    have := div_le_div_of_nonneg_right hc hsr.le
    linarith
  | cons m rest ih =>
    intro ps pt v1 v2 hs hm hv1 h12
    have h3 : (0 : ℚ) < (m.sample : ℚ) - (ps : ℚ) := by
      have : (ps : ℚ) < (m.sample : ℚ) := by exact_mod_cast hs.1
      linarith
    have hstep : (0 : ℚ) ≤ pt + ((m.sample : ℚ) - (ps : ℚ)) / sr + m.dTime - pt := by
      have := hm.1
      linarith
    by_cases hb2 : v2 ≤ m.sample
    · rw [s2tAux_cons_pos sr v1 ps pt m rest ⟨hv1, le_trans h12 hb2⟩,
        s2tAux_cons_pos sr v2 ps pt m rest ⟨lt_of_lt_of_le hv1 h12, hb2⟩]
      have hc : ((v1 : ℚ) - (ps : ℚ))
            * (pt + ((m.sample : ℚ) - (ps : ℚ)) / sr + m.dTime - pt)
          ≤ ((v2 : ℚ) - (ps : ℚ))
            * (pt + ((m.sample : ℚ) - (ps : ℚ)) / sr + m.dTime - pt) := by
        apply mul_le_mul_of_nonneg_right _ hstep
        have : (v1 : ℚ) ≤ (v2 : ℚ) := by exact_mod_cast h12
        linarith
      have := div_le_div_of_nonneg_right hc h3.le
      linarith
    · rw [s2tAux_cons_neg sr v2 ps pt m rest (by omega)]
      by_cases hb1 : v1 ≤ m.sample
      · rw [s2tAux_cons_pos sr v1 ps pt m rest ⟨hv1, hb1⟩]
        have hc : ((v1 : ℚ) - (ps : ℚ))
              * (pt + ((m.sample : ℚ) - (ps : ℚ)) / sr + m.dTime - pt)
            ≤ ((m.sample : ℚ) - (ps : ℚ))
              * (pt + ((m.sample : ℚ) - (ps : ℚ)) / sr + m.dTime - pt) := by
          apply mul_le_mul_of_nonneg_right _ hstep
          have : (v1 : ℚ) ≤ (m.sample : ℚ) := by exact_mod_cast hb1
          linarith
        have hub := div_le_div_of_nonneg_right hc h3.le
        have hcan : ((m.sample : ℚ) - (ps : ℚ))
              * (pt + ((m.sample : ℚ) - (ps : ℚ)) / sr + m.dTime - pt)
              / ((m.sample : ℚ) - (ps : ℚ))
            = pt + ((m.sample : ℚ) - (ps : ℚ)) / sr + m.dTime - pt := by
          rw [mul_comm, mul_div_assoc, div_self (ne_of_gt h3), mul_one]
        have hge := s2tAux_ge sr hsr rest m.sample
          (pt + ((m.sample : ℚ) - (ps : ℚ)) / sr + m.dTime) v2 hs.2 hm.2 (by omega)
        rw [hcan] at hub
        linarith
      · rw [s2tAux_cons_neg sr v1 ps pt m rest (by omega)]
        exact ih m.sample _ v1 v2 hs.2 hm.2 (by omega) h12

/-- C4 counterexample: the marker list [(sample 10, dTime minus 2)] is
sorted ascending by sample, yet sample2Time maps sample 0 to 0 and sample
10 to minus 1, so the map is not monotone for arbitrary dTime values. -/
theorem c4_not_monotone_arbitrary_dtime :
    (0 : ℤ) ≤ 10 ∧
      ¬ (sample2Time 10 [⟨10, 0, -2, 0⟩] 0 ≤ sample2Time 10 [⟨10, 0, -2, 0⟩] 10) := by
  constructor
  · norm_num
  · norm_num [sample2Time, s2tAux]

/-- C4 (amended): for markers sorted ascending by sample whose accumulated
time steps `(sample - prevSample)/sampleRate + dTime` are all nonnegative,
`sample2Time` is monotone non-decreasing; with arbitrary (sufficiently
negative) dTime values it is not. -/
theorem c4_sample2Time_monotone (sr : ℚ) (ms : List Marker) (hsr : 0 < sr)
    (hsort : MarkersSorted 0 ms) (hsteps : StepsMono sr 0 ms) :
    ∀ s1 s2 : ℤ, s1 ≤ s2 → sample2Time sr ms s1 ≤ sample2Time sr ms s2 := by
  intro s1 s2 h12
  unfold sample2Time
  by_cases h2 : s2 ≤ 0
  · rw [if_pos (le_trans h12 h2), if_pos h2]
    have hc : (s1 : ℚ) ≤ (s2 : ℚ) := by exact_mod_cast h12
    exact div_le_div_of_nonneg_right hc hsr.le
  · rw [if_neg h2]
    by_cases h1 : s1 ≤ 0
    · rw [if_pos h1]
      have hge := s2tAux_ge sr hsr ms 0 0 s2 hsort hsteps (by omega)
      have hle : (s1 : ℚ) / sr ≤ 0 := by
        apply div_nonpos_of_nonpos_of_nonneg
        · exact_mod_cast h1
        · exact le_of_lt hsr
      linarith
    · rw [if_neg h1]
      exact s2tAux_mono sr hsr ms 0 0 s1 s2 hsort hsteps (by omega) h12

/-- C4 witness: for the sorted single marker (sample 10, dTime 0) at
sampleRate 1, sample2Time is monotone from sample 3 to sample 7. -/
theorem c4_sample2Time_monotone_witness :
    sample2Time 1 [⟨10, 0, 0, 0⟩] 3 ≤ sample2Time 1 [⟨10, 0, 0, 0⟩] 7 :=
  c4_sample2Time_monotone 1 [⟨10, 0, 0, 0⟩] (by norm_num)
    (by norm_num [MarkersSorted]) (by norm_num [StepsMono]) 3 7 (by norm_num)

/-- Accumulated walk state (prevSample, prevTime, prevPitchBend) after the
marker loops of sample2Time / time2Sample / time2PitchBend have consumed a
list of markers without finding their bracketing interval. -/
def markerAcc (sr : ℚ) : ℤ × ℚ × ℚ → List Marker → ℤ × ℚ × ℚ
  | acc, [] => acc
  | (ps, pt, _), m :: rest =>
    markerAcc sr (m.sample, pt + ((m.sample : ℚ) - (ps : ℚ)) / sr + m.dTime, m.pitchBend) rest

/-- Final accumulated prevSample of the walk over `ms` started at the
initial state (0, 0, 0). -/
def accSample (sr : ℚ) (ms : List Marker) : ℤ := (markerAcc sr (0, 0, 0) ms).1

/-- Final accumulated prevTime (the edited time of the last consumed
marker) of the walk over `ms` started at (0, 0, 0). -/
def accTime (sr : ℚ) (ms : List Marker) : ℚ := (markerAcc sr (0, 0, 0) ms).2.1

/-- Final accumulated prevPitchBend of the walk over `ms` started at
(0, 0, 0). -/
def accPB (sr : ℚ) (ms : List Marker) : ℚ := (markerAcc sr (0, 0, 0) ms).2.2

/-- Edited time (`rightTime`) of marker `m` when it follows the prefix
`pre` in the marker list. -/
def rightTimeAfter (sr : ℚ) (pre : List Marker) (m : Marker) : ℚ :=
  accTime sr pre + ((m.sample : ℚ) - ((accSample sr pre : ℤ) : ℚ)) / sr + m.dTime

/-- Helper: under nonnegative time steps the accumulated time never
decreases below its starting value. -/
theorem markerAcc_time_mono (sr : ℚ) :
    ∀ (ms : List Marker) (ps : ℤ) (pt ppb : ℚ), StepsMono sr ps ms →
      pt ≤ (markerAcc sr (ps, pt, ppb) ms).2.1 := by
  intro ms
  induction ms with
  | nil =>
    intro ps pt ppb _
    simp [markerAcc]
  | cons m rest ih =>
    intro ps pt ppb hm
    have h1 : pt ≤ pt + ((m.sample : ℚ) - (ps : ℚ)) / sr + m.dTime := by
      have := hm.1
      linarith
    have h2 := ih m.sample (pt + ((m.sample : ℚ) - (ps : ℚ)) / sr + m.dTime)
      m.pitchBend hm.2
    calc pt ≤ pt + ((m.sample : ℚ) - (ps : ℚ)) / sr + m.dTime := h1
      _ ≤ _ := h2

/-- Helper: unfolding equation for the empty tail of the time2PitchBend
walk. -/
theorem t2pbAux_nil (sr val dur : ℚ) (ps : ℤ) (pt ppb : ℚ) :
    t2pbAux sr val dur ps pt ppb []
      = if dur < val then 0 else ppb + (val - pt) * (0 - ppb) / (dur - pt) := rfl

/-- Helper: unfolding equation for the interpolating branch of the
time2PitchBend walk. -/
theorem t2pbAux_cons_pos (sr val dur : ℚ) (ps : ℤ) (pt ppb : ℚ) (m : Marker)
    (rest : List Marker)
    (h : pt < val ∧ val ≤ pt + ((m.sample : ℚ) - (ps : ℚ)) / sr + m.dTime) :
    t2pbAux sr val dur ps pt ppb (m :: rest)
      = ppb + (val - pt) * (m.pitchBend - ppb)
          / ((pt + ((m.sample : ℚ) - (ps : ℚ)) / sr + m.dTime) - pt) := by
  conv_lhs => unfold t2pbAux
  dsimp only
  rw [if_pos h]

/-- Helper: unfolding equation for the advancing branch of the
time2PitchBend walk. -/
theorem t2pbAux_cons_neg (sr val dur : ℚ) (ps : ℤ) (pt ppb : ℚ) (m : Marker)
    (rest : List Marker)
    (h : ¬ (pt < val ∧ val ≤ pt + ((m.sample : ℚ) - (ps : ℚ)) / sr + m.dTime)) :
    t2pbAux sr val dur ps pt ppb (m :: rest)
      = t2pbAux sr val dur m.sample
          (pt + ((m.sample : ℚ) - (ps : ℚ)) / sr + m.dTime) m.pitchBend rest := by
  conv_lhs => unfold t2pbAux
  dsimp only
  rw [if_neg h]

/-- Helper: when the query time lies beyond every accumulated right time of
a prefix, the time2PitchBend walk skips the whole prefix and continues from
the accumulated state. -/
theorem t2pbAux_skip (sr val dur : ℚ) :
    ∀ (pre : List Marker) (ps : ℤ) (pt ppb : ℚ) (rest : List Marker),
      StepsMono sr ps pre → (markerAcc sr (ps, pt, ppb) pre).2.1 < val →
      t2pbAux sr val dur ps pt ppb (pre ++ rest)
        = t2pbAux sr val dur (markerAcc sr (ps, pt, ppb) pre).1
            (markerAcc sr (ps, pt, ppb) pre).2.1
            (markerAcc sr (ps, pt, ppb) pre).2.2 rest := by
  intro pre
  induction pre with
  | nil =>
    intro ps pt ppb rest _ _
    simp [markerAcc]
  | cons m pre ih =>
    intro ps pt ppb rest hm hlt
    have hacc : (markerAcc sr (ps, pt, ppb) (m :: pre)).2.1
        = (markerAcc sr
            (m.sample, pt + ((m.sample : ℚ) - (ps : ℚ)) / sr + m.dTime, m.pitchBend)
            pre).2.1 := rfl
    have hrtacc : pt + ((m.sample : ℚ) - (ps : ℚ)) / sr + m.dTime
        ≤ (markerAcc sr
            (m.sample, pt + ((m.sample : ℚ) - (ps : ℚ)) / sr + m.dTime, m.pitchBend)
            pre).2.1 :=
      markerAcc_time_mono sr pre m.sample _ m.pitchBend hm.2
    rw [hacc] at hlt
    have hneg : ¬ (pt < val ∧ val ≤ pt + ((m.sample : ℚ) - (ps : ℚ)) / sr + m.dTime) := by
      intro hcontra
      have := hcontra.2
      linarith
    rw [List.cons_append, t2pbAux_cons_neg sr val dur ps pt ppb m (pre ++ rest) hneg]
    exact ih m.sample _ m.pitchBend rest hm.2 hlt

/-- C2 counterexample: with sampleRate 10, one marker (sample 100, dTime 0,
pitchBend 6) and 201 samples, the first marker's edited time is 10, yet
`time2PitchBend` at edited time 5 (before the first marker) returns 3, not
0: the code interpolates the pitch bend from 0 at time 0 up to the first
marker instead of holding it at 0. -/
theorem c2_nonzero_before_first_marker :
    time2PitchBend 10 [⟨100, 0, 0, 6⟩] 201 5 = 3 ∧
      sample2Time 10 [⟨100, 0, 0, 6⟩] 100 = 10 ∧ ¬ ((3 : ℚ) = 0) := by
  refine ⟨?_, ?_, by norm_num⟩
  · norm_num [time2PitchBend, t2pbAux, duration, sample2Time, s2tAux]
  · norm_num [sample2Time, s2tAux]

/-- C2 (amended): `time2PitchBend` is 0 at and before edited time 0; on the
interval up to the first marker's edited time it interpolates linearly from
0 at time 0 to the first marker's pitchBend (instead of being 0 there); on
every later marker interval it interpolates linearly between consecutive
markers' pitchBend values; past the last marker it decays linearly from the
last marker's pitchBend to 0 at `duration()`; and it is 0 beyond
`duration()`. -/
theorem c2_pitch_bend_curve (sr : ℚ) (ms : List Marker) (dataSize : ℤ) :
    (∀ val : ℚ, val ≤ 0 → time2PitchBend sr ms dataSize val = 0) ∧
    (∀ (m : Marker) (rest : List Marker) (val : ℚ), ms = m :: rest →
      0 < val → val ≤ (m.sample : ℚ) / sr + m.dTime →
      time2PitchBend sr ms dataSize val
        = val * m.pitchBend / ((m.sample : ℚ) / sr + m.dTime)) ∧
    (∀ (pre : List Marker) (m : Marker) (rest : List Marker) (val : ℚ),
      ms = pre ++ m :: rest → StepsMono sr 0 pre →
      accTime sr pre < val → val ≤ rightTimeAfter sr pre m →
      time2PitchBend sr ms dataSize val
        = accPB sr pre + (val - accTime sr pre) * (m.pitchBend - accPB sr pre)
            / (rightTimeAfter sr pre m - accTime sr pre)) ∧
    (∀ val : ℚ, StepsMono sr 0 ms → accTime sr ms < val →
      val ≤ duration sr ms dataSize →
      time2PitchBend sr ms dataSize val
        = accPB sr ms + (val - accTime sr ms) * (0 - accPB sr ms)
            / (duration sr ms dataSize - accTime sr ms)) ∧
    (∀ val : ℚ, StepsMono sr 0 ms → accTime sr ms < val →
      duration sr ms dataSize < val → time2PitchBend sr ms dataSize val = 0) := by
  have key : ∀ (pre : List Marker) (m : Marker) (rest : List Marker) (val : ℚ),
      ms = pre ++ m :: rest → StepsMono sr 0 pre →
      accTime sr pre < val → val ≤ rightTimeAfter sr pre m →
      time2PitchBend sr ms dataSize val
        = accPB sr pre + (val - accTime sr pre) * (m.pitchBend - accPB sr pre)
            / (rightTimeAfter sr pre m - accTime sr pre) := by
    intro pre m rest val hms hsteps hlo hhi
    subst hms
    have h0acc : (0 : ℚ) ≤ accTime sr pre := markerAcc_time_mono sr pre 0 0 0 hsteps
    have hpos : ¬ (val ≤ 0) := by
      push_neg
      linarith
    unfold time2PitchBend
    rw [if_neg hpos]
    set D := duration sr (pre ++ m :: rest) dataSize with hD
    rw [t2pbAux_skip sr val D pre 0 0 0 (m :: rest) hsteps hlo]
    rw [show (markerAcc sr (0, 0, 0) pre).1 = accSample sr pre from rfl,
      show (markerAcc sr (0, 0, 0) pre).2.1 = accTime sr pre from rfl,
      show (markerAcc sr (0, 0, 0) pre).2.2 = accPB sr pre from rfl]
    have hbr : accTime sr pre < val ∧
        val ≤ accTime sr pre
          + ((m.sample : ℚ) - ((accSample sr pre : ℤ) : ℚ)) / sr + m.dTime := by
      refine ⟨hlo, ?_⟩
      have : rightTimeAfter sr pre m
          = accTime sr pre
            + ((m.sample : ℚ) - ((accSample sr pre : ℤ) : ℚ)) / sr + m.dTime := rfl
      linarith [hhi]
    rw [t2pbAux_cons_pos sr val D (accSample sr pre)
      (accTime sr pre) (accPB sr pre) m rest hbr]
    unfold rightTimeAfter
    ring
  refine ⟨?_, ?_, key, ?_, ?_⟩
  · intro val hval
    unfold time2PitchBend
    rw [if_pos hval]
  · intro m rest val hms h0 hhi
    have h := key [] m rest val (by simpa using hms) trivial
      (by simpa [accTime, markerAcc] using h0)
      (by
        simp only [rightTimeAfter, accTime, accSample, markerAcc, Int.cast_zero,
          sub_zero, zero_add]
        linarith)
    rw [h]
    simp only [accTime, accSample, accPB, rightTimeAfter, markerAcc, Int.cast_zero,
      sub_zero, zero_add]
  · intro val hsteps hlo hhi
    have h0acc : (0 : ℚ) ≤ accTime sr ms := markerAcc_time_mono sr ms 0 0 0 hsteps
    unfold time2PitchBend
    rw [if_neg (by push_neg; linarith)]
    set D := duration sr ms dataSize with hD
    conv_lhs => rw [← List.append_nil ms]
    rw [t2pbAux_skip sr val D ms 0 0 0 [] hsteps hlo]
    rw [t2pbAux_nil]
    rw [show (markerAcc sr (0, 0, 0) ms).2.1 = accTime sr ms from rfl,
      show (markerAcc sr (0, 0, 0) ms).2.2 = accPB sr ms from rfl]
    rw [if_neg (not_lt.mpr hhi)]
  · intro val hsteps hlo hhi
    have h0acc : (0 : ℚ) ≤ accTime sr ms := markerAcc_time_mono sr ms 0 0 0 hsteps
    unfold time2PitchBend
    rw [if_neg (by push_neg; linarith)]
    set D := duration sr ms dataSize with hD
    conv_lhs => rw [← List.append_nil ms]
    rw [t2pbAux_skip sr val D ms 0 0 0 [] hsteps hlo]
    rw [t2pbAux_nil]
    rw [if_pos hhi]

/-- C2 witness: applying the first-interval case with sampleRate 10, one
marker (sample 100, dTime 0, pitchBend 6), 201 samples and edited time 5
gives pitch bend 5 times 6 divided by 10. -/
theorem c2_pitch_bend_curve_witness :
    time2PitchBend 10 [⟨100, 0, 0, 6⟩] 201 5
      = 5 * (6 : ℚ) / ((100 : ℚ) / 10 + 0) := by
  have h := (c2_pitch_bend_curve 10 [⟨100, 0, 0, 6⟩] 201).2.1 ⟨100, 0, 0, 6⟩ [] 5 rfl
    (by norm_num) (by norm_num)
  simpa using h

/-- Post-spectral arithmetic of `App::estimateGrainSize` (src/app.cpp lines
1104-1139). The FFT scan over the 8192-sample window (lines 1107-1135) is
floating-point spectral analysis whose only output is the final bin index;
it is abstracted as the parameter `maxIndex`. Lines 1137-1138 are embedded
exactly: `maxFreq = max(1., maxIndex * sampleRate / 8192 / 4.)` and the
returned size is `ceil(1500 * maxFreq / sampleRate) * sampleRate / maxFreq`
converted to int (`GrainSpectrSize = 2 * 4096 = 8192`,
`preferredGrainSize = 1500`). -/
def estimateGrainSize (sr : ℚ) (maxIndex : ℤ) : ℤ :=
  let maxFreq : ℚ := max 1 ((maxIndex : ℚ) * sr / 8192 / 4)
  truncI (((⌈(1500 : ℚ) * maxFreq / sr⌉ : ℤ) : ℚ) * sr / maxFreq)

/-- C7: the estimated grain size is the truncation of
`ceil(preferred * maxFreq / sampleRate) * sampleRate / maxFreq` with
preferred = 1500 and `maxFreq = max(1, maxIndex * sampleRate / 8192 / 4)` —
the truncated integer multiple `ceil(...)` of one period at maxFreq — and
it is always at least the preferred base size of 1500 samples. -/
theorem c7_grain_size_formula (sr : ℚ) (maxIndex : ℤ) (hsr : 0 < sr) :
    estimateGrainSize sr maxIndex
      = truncI (((⌈(1500 : ℚ) * max 1 ((maxIndex : ℚ) * sr / 8192 / 4) / sr⌉ : ℤ) : ℚ)
          * sr / max 1 ((maxIndex : ℚ) * sr / 8192 / 4)) ∧
    1500 ≤ estimateGrainSize sr maxIndex := by
  constructor
  · rfl
  · unfold estimateGrainSize
    dsimp only
    set f : ℚ := max 1 ((maxIndex : ℚ) * sr / 8192 / 4) with hf
    have hf1 : (1 : ℚ) ≤ f := le_max_left _ _
    have hf0 : (0 : ℚ) < f := lt_of_lt_of_le one_pos hf1
    set k : ℤ := ⌈(1500 : ℚ) * f / sr⌉ with hk
    have hx : (1500 : ℚ) * f / sr ≤ (k : ℚ) := Int.le_ceil _
    have hy : (1500 : ℚ) ≤ (k : ℚ) * sr / f := by
      have h1 : (1500 : ℚ) * f / sr * sr ≤ (k : ℚ) * sr :=
        mul_le_mul_of_nonneg_right hx hsr.le
      have h2 := div_le_div_of_nonneg_right h1 hf0.le
      have h3 : (1500 : ℚ) * f / sr * sr / f = 1500 := by
        field_simp
      linarith
    have h0y : (0 : ℚ) ≤ (k : ℚ) * sr / f := by linarith
    unfold truncI
    rw [if_pos h0y]
    exact Int.le_floor.mpr (by exact_mod_cast hy)

/-- C7 witness: at sampleRate 48000 and final spectral bin 100 the
estimated grain size is at least 1500. -/
theorem c7_grain_size_formula_witness :
    (0 : ℚ) < 48000 ∧ 1500 ≤ estimateGrainSize 48000 100 :=
  ⟨by norm_num, (c7_grain_size_formula 48000 100 (by norm_num)).2⟩

/-- Memoized `App::sample2Time` (src/app.cpp lines 979-1008) including its
cache logic: the member `sample2TimeCache` is modelled as an association
list keyed by the exact integer argument; inputs `val <= 0` return before
the cache is consulted (line 983); on a miss the computed value is stored
(lines 998 and 1006). The function returns the answer and the updated
cache. -/
def sample2TimeMemo (sr : ℚ) (ms : List Marker) (cache : List (ℤ × ℚ)) (val : ℤ) :
    ℚ × List (ℤ × ℚ) :=
  if val ≤ 0 then ((val : ℚ) / sr, cache)
  else
    match cache.find? (fun p => p.1 == val) with
    | some p => (p.2, cache)
    | none =>
      let r := s2tAux sr val 0 0 ms
      (r, (val, r) :: cache)

/-- Memoized `App::time2Sample` (src/app.cpp lines 1010-1039): the member
`time2SampleCache` is keyed by the quantized time `int(val * sampleRate)`
(lines 1017, 1029, 1037); inputs `val <= 0` bypass the cache (line 1014);
on a miss the computed value is stored at both return sites. -/
def time2SampleMemo (sr : ℚ) (ms : List Marker) (cache : List (ℤ × ℤ)) (val : ℚ) :
    ℤ × List (ℤ × ℤ) :=
  if val ≤ 0 then (truncI (val * sr), cache)
  else
    match cache.find? (fun p => p.1 == truncI (val * sr)) with
    | some p => (p.2, cache)
    | none =>
      let r := t2sAux sr val 0 0 ms
      (r, (truncI (val * sr), r) :: cache)

/-- Marker walk of `App::time2PitchBend` together with the store decision:
the second component records whether the return site stores into the cache
(the `val > duration()` early return at line 1072 does not store; the other
return sites at lines 1063 and 1075 do). The first component equals
`t2pbAux`. -/
def t2pbAuxM (sr : ℚ) (val dur : ℚ) : ℤ → ℚ → ℚ → List Marker → ℚ × Bool
  | _, pt, ppb, [] =>
    if dur < val then (0, false)
    else (ppb + (val - pt) * (0 - ppb) / (dur - pt), true)
  | ps, pt, ppb, m :: rest =>
    let rt := pt + ((m.sample : ℚ) - (ps : ℚ)) / sr + m.dTime
    if pt < val ∧ val ≤ rt then
      (ppb + (val - pt) * (m.pitchBend - ppb) / (rt - pt), true)
    else t2pbAuxM sr val dur m.sample rt m.pitchBend rest

/-- Memoized `App::time2PitchBend` (src/app.cpp lines 1046-1077): the
member `time2PitchBendCache` is keyed by `int(val * sampleRate)`; inputs
`val <= 0` and the `val > duration()` early return bypass the store. -/
def time2PitchBendMemo (sr : ℚ) (ms : List Marker) (dataSize : ℤ)
    (cache : List (ℤ × ℚ)) (val : ℚ) : ℚ × List (ℤ × ℚ) :=
  if val ≤ 0 then (0, cache)
  else
    match cache.find? (fun p => p.1 == truncI (val * sr)) with
    | some p => (p.2, cache)
    | none =>
      let rb := t2pbAuxM sr val (duration sr ms dataSize) 0 0 0 ms
      (rb.1, if rb.2 then (truncI (val * sr), rb.1) :: cache else cache)

/-- Helper: the flagged pitch-bend walk computes the same value as the
plain walk. -/
theorem t2pbAuxM_fst (sr val dur : ℚ) :
    ∀ (ms : List Marker) (ps : ℤ) (pt ppb : ℚ),
      (t2pbAuxM sr val dur ps pt ppb ms).1 = t2pbAux sr val dur ps pt ppb ms := by
  intro ms
  induction ms with
  | nil =>
    intro ps pt ppb
    unfold t2pbAuxM t2pbAux
    split <;> rfl
  | cons m rest ih =>
    intro ps pt ppb
    conv_lhs => unfold t2pbAuxM
    conv_rhs => unfold t2pbAux
    dsimp only
    by_cases hc : pt < val ∧ val ≤ pt + ((m.sample : ℚ) - (ps : ℚ)) / sr + m.dTime
    · rw [if_pos hc, if_pos hc]
    · rw [if_neg hc, if_neg hc]
      exact ih m.sample _ m.pitchBend

/-- C8 counterexample: sampleRate 10, one marker (sample 1000, dTime -90),
so edited times in (0, 10] map to samples at 100 samples per second while
the cache key grid is 1/10 s. Querying time 51/100 first caches answer 51
under key 5; the distinct time 55/100 has the same key 5, so the memoized
function returns 51 although the pure function returns 55: caching by
quantized key does change the answer for a distinct input. -/
theorem c8_cache_key_collision :
    (time2SampleMemo 10 [⟨1000, 0, -90, 0⟩]
        ((time2SampleMemo 10 [⟨1000, 0, -90, 0⟩] [] (51 / 100)).2) (55 / 100)).1 = 51 ∧
      time2Sample 10 [⟨1000, 0, -90, 0⟩] (55 / 100) = 55 ∧ (51 : ℤ) ≠ 55 := by
  have h1 : (time2SampleMemo 10 [⟨1000, 0, -90, 0⟩] [] (51 / 100)).2 = [(5, 51)] := by
    norm_num [time2SampleMemo, t2sAux, truncI]
  refine ⟨?_, ?_, by decide⟩
  · rw [h1]
    norm_num [time2SampleMemo, truncI, List.find?]
  · norm_num [time2Sample, t2sAux, truncI]

/-- C8 (amended): `sample2Time`'s memoization is transparent — its cache
key is the exact integer input, so for any cache built from pure values the
memoized answer equals the pure answer and the cache stays pure. The
time-keyed caches of `time2Sample` and `time2PitchBend` are only sound up
to key quantization: every memoized answer is the pure answer of some
(possibly different) input whose time rounds to the same sample tick, and
the caches preserve that property; the answer can therefore differ from the
pure answer at the queried input (see the counterexample). -/
theorem c8_memo_consistency (sr : ℚ) (ms : List Marker) (dataSize : ℤ) :
    (∀ (c : List (ℤ × ℚ)) (val : ℤ),
      (∀ p ∈ c, p.2 = sample2Time sr ms p.1) →
      (sample2TimeMemo sr ms c val).1 = sample2Time sr ms val ∧
        ∀ p ∈ (sample2TimeMemo sr ms c val).2, p.2 = sample2Time sr ms p.1) ∧
    (∀ (c : List (ℤ × ℤ)) (val : ℚ),
      (∀ p ∈ c, ∃ t : ℚ, truncI (t * sr) = p.1 ∧ p.2 = time2Sample sr ms t) →
      (∃ t : ℚ, truncI (t * sr) = truncI (val * sr) ∧
        (time2SampleMemo sr ms c val).1 = time2Sample sr ms t) ∧
        ∀ p ∈ (time2SampleMemo sr ms c val).2,
          ∃ t : ℚ, truncI (t * sr) = p.1 ∧ p.2 = time2Sample sr ms t) ∧
    (∀ (c : List (ℤ × ℚ)) (val : ℚ),
      (∀ p ∈ c, ∃ t : ℚ, truncI (t * sr) = p.1 ∧
        p.2 = time2PitchBend sr ms dataSize t) →
      (∃ t : ℚ, truncI (t * sr) = truncI (val * sr) ∧
        (time2PitchBendMemo sr ms dataSize c val).1 = time2PitchBend sr ms dataSize t) ∧
        ∀ p ∈ (time2PitchBendMemo sr ms dataSize c val).2,
          ∃ t : ℚ, truncI (t * sr) = p.1 ∧
            p.2 = time2PitchBend sr ms dataSize t) := by
  refine ⟨?_, ?_, ?_⟩
  · intro c val hc
    unfold sample2TimeMemo
    by_cases hv : val ≤ 0
    · rw [if_pos hv]
      refine ⟨?_, hc⟩
      unfold sample2Time
      rw [if_pos hv]
    · rw [if_neg hv]
      cases hfind : c.find? (fun p => p.1 == val) with
      | some p =>
        simp only [hfind]
        have hmem := List.mem_of_find?_eq_some hfind
        have hkey : p.1 = val := by
          have := List.find?_some hfind
          simpa using this
        exact ⟨by rw [hc p hmem, hkey], hc⟩
      | none =>
        simp only [hfind]
        constructor
        · show s2tAux sr val 0 0 ms = sample2Time sr ms val
          unfold sample2Time
          rw [if_neg hv]
        · intro p hp
          rcases List.mem_cons.mp hp with h | h
          · rw [h]
            show s2tAux sr val 0 0 ms = sample2Time sr ms val
            unfold sample2Time
            rw [if_neg hv]
          · exact hc p h
  · intro c val hc
    unfold time2SampleMemo
    by_cases hv : val ≤ 0
    · rw [if_pos hv]
      refine ⟨⟨val, rfl, ?_⟩, hc⟩
      unfold time2Sample
      rw [if_pos hv]
    · rw [if_neg hv]
      cases hfind : c.find? (fun p => p.1 == truncI (val * sr)) with
      | some p =>
        simp only [hfind]
        have hmem := List.mem_of_find?_eq_some hfind
        have hkey : p.1 = truncI (val * sr) := by
          have := List.find?_some hfind
          simpa using this
        rcases hc p hmem with ⟨t, ht1, ht2⟩
        exact ⟨⟨t, by rw [ht1, hkey], ht2.symm ▸ rfl⟩, hc⟩
      | none =>
        simp only [hfind]
        have hpure : t2sAux sr val 0 0 ms = time2Sample sr ms val := by
          unfold time2Sample
          rw [if_neg hv]
        constructor
        · exact ⟨val, rfl, hpure⟩
        · intro p hp
          rcases List.mem_cons.mp hp with h | h
          · rw [h]
            exact ⟨val, rfl, hpure⟩
          · exact hc p h
  · intro c val hc
    unfold time2PitchBendMemo
    by_cases hv : val ≤ 0
    · rw [if_pos hv]
      refine ⟨⟨val, rfl, ?_⟩, hc⟩
      unfold time2PitchBend
      rw [if_pos hv]
    · rw [if_neg hv]
      cases hfind : c.find? (fun p => p.1 == truncI (val * sr)) with
      | some p =>
        simp only [hfind]
        have hmem := List.mem_of_find?_eq_some hfind
        have hkey : p.1 = truncI (val * sr) := by
          have := List.find?_some hfind
          simpa using this
        rcases hc p hmem with ⟨t, ht1, ht2⟩
        exact ⟨⟨t, by rw [ht1, hkey], ht2.symm ▸ rfl⟩, hc⟩
      | none =>
        simp only [hfind]
        have hpure : (t2pbAuxM sr val (duration sr ms dataSize) 0 0 0 ms).1
            = time2PitchBend sr ms dataSize val := by
          rw [t2pbAuxM_fst]
          unfold time2PitchBend
          rw [if_neg hv]
        constructor
        · exact ⟨val, rfl, hpure⟩
        · intro p hp
          by_cases hb : (t2pbAuxM sr val (duration sr ms dataSize) 0 0 0 ms).2 = true
          · rw [if_pos hb] at hp
            rcases List.mem_cons.mp hp with h | h
            · rw [h]
              exact ⟨val, rfl, hpure⟩
            · exact hc p h
          · rw [if_neg hb] at hp
            exact hc p hp

/-- C8 witness: with sampleRate 1, no markers and an empty cache, the
memoized sample2Time of sample 1 equals the pure sample2Time. -/
theorem c8_memo_consistency_witness :
    (sample2TimeMemo 1 [] [] 1).1 = sample2Time 1 [] 1 :=
  (((c8_memo_consistency 1 [] 0).1 [] 1 (by simp))).1

/-- Grain emitted by `App::preproc` (src/app.cpp lines 160 and 175): the
span covers buffer samples [start, stop) and `drift` is the span length
minus the grain-size target at creation. The grains map keyed by
startSample is modelled as the emission-ordered list. -/
structure Grain where
  start : ℤ
  stop : ℤ
  drift : ℤ
  deriving DecidableEq

/-- Zero-crossing test of the segmentation scans (src/app.cpp lines 157 and
172): the sample at `i` is negative and the one at `i + 1` is
non-negative. -/
def isZeroCrossing (d : ℤ → ℚ) (i : ℤ) : Prop := d i < 0 ∧ 0 ≤ d (i + 1)

instance (d : ℤ → ℚ) (i : ℤ) : Decidable (isZeroCrossing d i) :=
  inferInstanceAs (Decidable (And _ _))

/-- Zig-zag offset of the grain-boundary search (src/app.cpp line 156):
`(i % 2 == 0 ? i / 2 : -i / 2)` with C++ integer division (for nonnegative
`i`, `(-i)/2 = -(i/2)`). -/
def zigOffset (i : ℕ) : ℤ :=
  if i % 2 = 0 then ((i / 2 : ℕ) : ℤ) else -((i / 2 : ℕ) : ℤ)

/-- Outward zig-zag scan for a zero-crossing near `start + grainSize`
(src/app.cpp lines 153-165): probes index `start + gs + zigOffset i` for
i = 0, 1, ... while `i < gs`, returning the first crossing index. The fuel
equals the remaining iteration count, so `gs.toNat` from i = 0 covers the
loop exactly. -/
def findZCGo (d : ℤ → ℚ) (start gs : ℤ) : ℕ → ℕ → Option ℤ
  | 0, _ => none
  | fuel + 1, i =>
    if (i : ℤ) < gs then
      if isZeroCrossing d (start + gs + zigOffset i) then some (start + gs + zigOffset i)
      else findZCGo d start gs fuel (i + 1)
    else none

/-- Zig-zag search entry point (src/app.cpp lines 154-165). -/
def findZC (d : ℤ → ℚ) (start gs : ℤ) : Option ℤ := findZCGo d start gs gs.toNat 0

/-- Forward fallback scan (src/app.cpp lines 170-181): probes indices i,
i + 1, ... while `i < stop`, returning the first crossing index. -/
def findFwdGo (d : ℤ → ℚ) (stop : ℤ) : ℕ → ℤ → Option ℤ
  | 0, _ => none
  | fuel + 1, i =>
    if i < stop then
      if isZeroCrossing d i then some i else findFwdGo d stop fuel (i + 1)
    else none

/-- Fallback search entry point: scan from `i` up to (excluding) `stop`
(src/app.cpp line 170: `stop = data.size() - 1`). -/
def findFwd (d : ℤ → ℚ) (i stop : ℤ) : Option ℤ := findFwdGo d stop (stop - i).toNat i

/-- Grain-generation loop of `App::preproc` (src/app.cpp lines 148-191),
fuel-indexed. State: (start, grainSize, nextEstimation). The loop runs
while `start < dataSize - grainSize - 1` (the C++ comparison after the
int cast of the size_t expression); a zig-zag hit at `idx` (or, failing
that, a fallback hit) emits the grain [start, idx) with drift
`idx - start - grainSize` and continues from `start = idx`, re-estimating
the grain size once start passes nextEstimation (step GrainSpectrSize =
8192, lines 185-189); if the fallback also finds nothing the loop breaks
(line 183). -/
def preprocLoop (d : ℤ → ℚ) (size : ℤ) (est : ℤ → ℤ) :
    ℕ → ℤ → ℤ → ℤ → List Grain
  | 0, _, _, _ => []
  | fuel + 1, start, gs, ne =>
    if start < size - gs - 1 then
      match findZC d start gs with
      | some idx =>
        ⟨start, idx, idx - start - gs⟩ ::
          preprocLoop d size est fuel idx (if idx > ne then est idx else gs)
            (if idx > ne then ne + 8192 else ne)
      | none =>
        match findFwd d (start + gs + gs / 2) (size - 1) with
        | some j =>
          ⟨start, j, j - start - gs⟩ ::
            preprocLoop d size est fuel j (if j > ne then est j else gs)
              (if j > ne then ne + 8192 else ne)
        | none => []
    else []

/-- Grain generation of `App::preproc` (src/app.cpp lines 142-191) over a
buffer of `size` samples with contents `d` and grain-size estimator `est`
(abstracting `estimateGrainSize`, whose spectral scan is floating-point;
by C7 it always returns at least 1500, so each emitted grain moves `start`
strictly forward and `size.toNat + 1` fuel covers every run of the loop).
Initial state: start 0, grainSize `est 0`, nextEstimation 8192. -/
def preproc (d : ℤ → ℚ) (size : ℤ) (est : ℤ → ℤ) : List Grain :=
  preprocLoop d size est (size.toNat + 1) 0 (est 0) 8192

/-- Helper: a successful zig-zag probe unfolds to a cons-free result. -/
theorem findZCGo_hit (d : ℤ → ℚ) (start gs : ℤ) (fuel i : ℕ)
    (h1 : (i : ℤ) < gs) (h2 : isZeroCrossing d (start + gs + zigOffset i)) :
    findZCGo d start gs (fuel + 1) i = some (start + gs + zigOffset i) := by
  unfold findZCGo
  rw [if_pos h1, if_pos h2]

/-- Helper: any zig-zag result is a zero-crossing. -/
theorem findZCGo_some (d : ℤ → ℚ) (start gs : ℤ) :
    ∀ (fuel i : ℕ) (idx : ℤ), findZCGo d start gs fuel i = some idx →
      isZeroCrossing d idx := by
  intro fuel
  induction fuel with
  | zero =>
    intro i idx h
    simp [findZCGo] at h
  | succ n ih =>
    intro i idx h
    unfold findZCGo at h
    by_cases h1 : (i : ℤ) < gs
    · rw [if_pos h1] at h
      by_cases h2 : isZeroCrossing d (start + gs + zigOffset i)
      · rw [if_pos h2] at h
        cases h
        exact h2
      · rw [if_neg h2] at h
        exact ih (i + 1) idx h
    · rw [if_neg h1] at h
      cases h

/-- Helper: any fallback-scan result is a zero-crossing. -/
theorem findFwdGo_some (d : ℤ → ℚ) (stop : ℤ) :
    ∀ (fuel : ℕ) (i idx : ℤ), findFwdGo d stop fuel i = some idx →
      isZeroCrossing d idx := by
  intro fuel
  induction fuel with
  | zero =>
    intro i idx h
    simp [findFwdGo] at h
  | succ n ih =>
    intro i idx h
    unfold findFwdGo at h
    by_cases h1 : i < stop
    · rw [if_pos h1] at h
      by_cases h2 : isZeroCrossing d i
      · rw [if_pos h2] at h
        cases h
        exact h2
      · rw [if_neg h2] at h
        exact ih (i + 1) idx h
    · rw [if_neg h1] at h
      cases h

/-- Helper: loop-exit unfolding equation of the grain loop. -/
theorem preprocLoop_stop (d : ℤ → ℚ) (size : ℤ) (est : ℤ → ℤ)
    (fuel : ℕ) (start gs ne : ℤ) (h : ¬ (start < size - gs - 1)) :
    preprocLoop d size est (fuel + 1) start gs ne = [] := by
  unfold preprocLoop
  rw [if_neg h]

/-- Helper: zig-zag-hit unfolding equation of the grain loop. -/
theorem preprocLoop_zig (d : ℤ → ℚ) (size : ℤ) (est : ℤ → ℤ)
    (fuel : ℕ) (start gs ne idx : ℤ) (h1 : start < size - gs - 1)
    (h2 : findZC d start gs = some idx) :
    preprocLoop d size est (fuel + 1) start gs ne
      = ⟨start, idx, idx - start - gs⟩ ::
          preprocLoop d size est fuel idx (if idx > ne then est idx else gs)
            (if idx > ne then ne + 8192 else ne) := by
  conv_lhs => unfold preprocLoop
  rw [if_pos h1, h2]

/-- Helper: fallback-hit unfolding equation of the grain loop. -/
theorem preprocLoop_fwd (d : ℤ → ℚ) (size : ℤ) (est : ℤ → ℤ)
    (fuel : ℕ) (start gs ne j : ℤ) (h1 : start < size - gs - 1)
    (h2 : findZC d start gs = none)
    (h3 : findFwd d (start + gs + gs / 2) (size - 1) = some j) :
    preprocLoop d size est (fuel + 1) start gs ne
      = ⟨start, j, j - start - gs⟩ ::
          preprocLoop d size est fuel j (if j > ne then est j else gs)
            (if j > ne then ne + 8192 else ne) := by
  conv_lhs => unfold preprocLoop
  rw [if_pos h1, h2, h3]

/-- Helper: segmentation-break unfolding equation of the grain loop (no
crossing found by either scan). -/
theorem preprocLoop_dead (d : ℤ → ℚ) (size : ℤ) (est : ℤ → ℤ)
    (fuel : ℕ) (start gs ne : ℤ) (h1 : start < size - gs - 1)
    (h2 : findZC d start gs = none)
    (h3 : findFwd d (start + gs + gs / 2) (size - 1) = none) :
    preprocLoop d size est (fuel + 1) start gs ne = [] := by
  conv_lhs => unfold preprocLoop
  rw [if_pos h1, h2, h3]

/-- Helper: invariants of the grain loop — every emitted grain ends at a
zero-crossing, consecutive grains are contiguous, and the first emitted
grain starts at the loop's entry `start`. -/
theorem preprocLoop_props (d : ℤ → ℚ) (size : ℤ) (est : ℤ → ℤ) :
    ∀ (fuel : ℕ) (start gs ne : ℤ),
      (∀ g ∈ preprocLoop d size est fuel start gs ne, isZeroCrossing d g.stop) ∧
      List.Chain' (fun a b => b.start = a.stop) (preprocLoop d size est fuel start gs ne) ∧
      (∀ g ∈ (preprocLoop d size est fuel start gs ne).head?, g.start = start) := by
  intro fuel
  induction fuel with
  | zero =>
    intro start gs ne
    refine ⟨?_, ?_, ?_⟩ <;> simp [preprocLoop]
  | succ n ih =>
    intro start gs ne
    by_cases hc : start < size - gs - 1
    · cases hz : findZC d start gs with
      | some idx =>
        rw [preprocLoop_zig d size est n start gs ne idx hc hz]
        obtain ⟨ih1, ih2, ih3⟩ := ih idx (if idx > ne then est idx else gs)
          (if idx > ne then ne + 8192 else ne)
        have hzc : isZeroCrossing d idx := findZCGo_some d start gs gs.toNat 0 idx hz
        refine ⟨?_, ?_, ?_⟩
        · intro g hg
          rcases List.mem_cons.mp hg with h | h
          · rw [h]
            exact hzc
          · exact ih1 g h
        · rw [List.chain'_cons']
          refine ⟨?_, ih2⟩
          intro b hb
          rw [ih3 b hb]
        · intro g hg
          simp only [List.head?_cons, Option.mem_def, Option.some.injEq] at hg
          rw [← hg]
      | none =>
        cases hf : findFwd d (start + gs + gs / 2) (size - 1) with
        | some j =>
          rw [preprocLoop_fwd d size est n start gs ne j hc hz hf]
          obtain ⟨ih1, ih2, ih3⟩ := ih j (if j > ne then est j else gs)
            (if j > ne then ne + 8192 else ne)
          have hzc : isZeroCrossing d j :=
            findFwdGo_some d (size - 1) (size - 1 - (start + gs + gs / 2)).toNat
              (start + gs + gs / 2) j hf
          refine ⟨?_, ?_, ?_⟩
          · intro g hg
            rcases List.mem_cons.mp hg with h | h
            · rw [h]
              exact hzc
            · exact ih1 g h
          · rw [List.chain'_cons']
            refine ⟨?_, ih2⟩
            intro b hb
            rw [ih3 b hb]
          · intro g hg
            simp only [List.head?_cons, Option.mem_def, Option.some.injEq] at hg
            rw [← hg]
        | none =>
          rw [preprocLoop_dead d size est n start gs ne hc hz hf]
          refine ⟨?_, ?_, ?_⟩ <;> simp
    · rw [preprocLoop_stop d size est n start gs ne hc]
      refine ⟨?_, ?_, ?_⟩ <;> simp

/-- Helper: in a contiguous grain list whose grains all end at
zero-crossings, every grain after the first starts at a zero-crossing. -/
theorem chain_tail_starts (d : ℤ → ℚ) :
    ∀ (l : List Grain), List.Chain' (fun a b => b.start = a.stop) l →
      (∀ g ∈ l, isZeroCrossing d g.stop) →
      ∀ g ∈ l.tail, isZeroCrossing d g.start := by
  intro l
  induction l with
  | nil =>
    intro _ _ g hg
    simp at hg
  | cons a t ih =>
    intro hch hall
    cases t with
    | nil =>
      intro g hg
      simp at hg
    | cons b t2 =>
      intro g hg
      rcases List.mem_cons.mp hg with h | h
      · have hb : b.start = a.stop := (List.chain'_cons.mp hch).1
        rw [h, hb]
        exact hall a (by simp)
      · exact ih (List.chain'_cons.mp hch).2
          (fun g hg => hall g (List.mem_cons_of_mem _ hg)) g h

/-- C1 (amended): for every buffer, buffer size and grain-size estimator,
every grain produced by the segmentation pass ends at a true zero-crossing;
consecutive grains are contiguous (each grain's span ends exactly at the
next grain's startSample); hence every grain except the first also starts
at a true zero-crossing; but the first grain (when any is produced) starts
at sample 0, which need not be a zero-crossing. -/
theorem c1_grain_boundaries (d : ℤ → ℚ) (size : ℤ) (est : ℤ → ℤ) :
    (∀ g ∈ preproc d size est, isZeroCrossing d g.stop) ∧
    List.Chain' (fun a b => b.start = a.stop) (preproc d size est) ∧
    (∀ g ∈ (preproc d size est).head?, g.start = 0) ∧
    (∀ g ∈ (preproc d size est).tail, isZeroCrossing d g.start) := by
  obtain ⟨h1, h2, h3⟩ := preprocLoop_props d size est (size.toNat + 1) 0 (est 0) 8192
  exact ⟨h1, h2, h3, chain_tail_starts d _ h2 h1⟩

/-- Buffer used in the concrete C1 instances: 1502 samples, all 1 except a
single negative sample at index 1500, so the first zig-zag probe of the
first grain (index start + grainSize = 1500) hits the crossing at once. -/
def dC1 : ℤ → ℚ := fun i => if i = 1500 then -1 else 1

/-- Helper: the segmentation of `dC1` with a constant estimate of 1500
produces exactly one grain, spanning [0, 1500). -/
theorem preproc_dC1 : preproc dC1 1502 (fun _ => 1500) = [⟨0, 1500, 0⟩] := by
  have hzc0 : isZeroCrossing dC1 (0 + 1500 + zigOffset 0) := by
    norm_num [isZeroCrossing, dC1, zigOffset]
  have hfz : findZC dC1 0 1500 = some 1500 := by
    unfold findZC
    rw [show (1500 : ℤ).toNat = 1499 + 1 from rfl]
    rw [findZCGo_hit dC1 0 1500 1499 0 (by norm_num) hzc0]
    norm_num [zigOffset]
  unfold preproc
  rw [show ((1502 : ℤ).toNat + 1) = 1502 + 1 from rfl]
  rw [preprocLoop_zig dC1 1502 (fun _ => 1500) 1502 0 1500 8192 1500 (by norm_num) hfz]
  have hne : ¬ ((1500 : ℤ) > 8192) := by norm_num
  rw [if_neg hne, if_neg hne]
  rw [show (1502 : ℕ) = 1501 + 1 from rfl]
  rw [preprocLoop_stop dC1 1502 (fun _ => 1500) 1501 1500 1500 8192 (by norm_num)]
  norm_num

/-- C1 counterexample: segmenting the 1502-sample buffer `dC1` (first
sample 1, crossing at 1500) produces the single grain [0, 1500), whose
startSample 0 is not a true zero-crossing (sample 0 is 1, not negative):
not every produced grain starts at a zero-crossing. -/
theorem c1_first_grain_not_zero_crossing :
    preproc dC1 1502 (fun _ => 1500) = [⟨0, 1500, 0⟩] ∧
      ¬ isZeroCrossing dC1 ((⟨0, 1500, 0⟩ : Grain)).start := by
  refine ⟨preproc_dC1, ?_⟩
  norm_num [isZeroCrossing, dC1]

/-- C1 witness: the single grain produced for `dC1` ends at the
zero-crossing 1500. -/
theorem c1_grain_boundaries_witness :
    isZeroCrossing dC1 ((⟨0, 1500, 0⟩ : Grain)).stop :=
  (c1_grain_boundaries dC1 1502 (fun _ => 1500)).1 ⟨0, 1500, 0⟩
    (by rw [preproc_dC1]; simp)

/-- Environment read by the playback callback `App::playback` (src/app.cpp
lines 209-327). `pow2` abstracts the C++ `pow(2, pitchBend / 12)` resample
rate (line 236); `sinq` abstracts `sin(x * 3.1415926 / 2)`, the equal-power
crossfade weight (line 305); `ov` is the sequence of successive
`(rand() % 200 + 700) / 1000.` draws (line 283), consumed one per
crossfaded grain; `ifuel` bounds the inner resample loops (an embedding
artifact; the loops terminate for any positive rate). -/
structure PlayEnv where
  sr : ℚ
  markers : List Marker
  dataSize : ℤ
  d : ℤ → ℚ
  grains : List Grain
  pow2 : ℚ → ℚ
  sinq : ℚ → ℚ
  ov : ℕ → ℚ
  ifuel : ℕ

/-- Playback state mutated by the callback: the authoritative cursor
(seconds), the playing flag, the residual buffer `restWav`, the fractional
resample phase `bias` (read at lines 251, 273, 289 and never written), and
the span (start, stop) of the previously rendered grain. The code's memory
adjacency test `&grain[0] - &prevGrain[prevGrain.size()] == 0` (line 264)
holds exactly when the new span starts where the previous span stopped. -/
structure PlayState where
  cursorSec : ℚ
  isPlaying : Bool
  restWav : List ℚ
  bias : ℚ
  prevGrain : ℤ × ℤ
  deriving DecidableEq

/-- `grains.lower_bound(sample)` on the ordered grain map (src/app.cpp
line 237): the first grain in start order whose startSample is at least
`sample`. -/
def lowerBound (gs : List Grain) (sample : ℤ) : Option Grain :=
  gs.find? (fun g => decide (sample ≤ g.start))

/-- Linear-interpolation output sample of the resample loops (src/app.cpp
lines 277 and 293): `(1 - curBias) * grain[idx] + curBias * (grain[idx+1]`
inside the grain, else the precomputed first sample of the next grain. -/
def grainSample (e : PlayEnv) (g : Grain) (idx : ℤ) (cb nf : ℚ) : ℚ :=
  (1 - cb) * e.d (g.start + idx)
    + cb * (if idx + 1 < g.stop - g.start then e.d (g.start + idx + 1) else nf)

/-- Length of a resampled run (the counting loop of the closure at src/
app.cpp lines 248-256): the number of iterations i = 0, 1, ... for which
`idx = trunc(i * rate + bias)` is still inside the grain. -/
def runLen (rate bias : ℚ) (size : ℤ) : ℕ → ℕ → ℕ
  | 0, _ => 0
  | fuel + 1, i =>
    if truncI ((i : ℚ) * rate + bias) < size then runLen rate bias size fuel (i + 1) + 1
    else 0

/-- First sample of the next resolved grain (closure at src/app.cpp lines
246-263): project the cursor forward by the run's duration, re-resolve via
time2Sample and the grain lookup; 0 when no grain is found. -/
def nextGrainFirstSample (e : PlayEnv) (g : Grain) (rate bias tmp : ℚ) : ℚ :=
  let sz := runLen rate bias (g.stop - g.start) e.ifuel 0
  let sample := time2Sample e.sr e.markers (tmp + (sz : ℚ) / e.sr)
  match lowerBound e.grains sample with
  | none => 0
  | some g2 => e.d g2.start

/-- Contiguous-append resample loop (src/app.cpp lines 270-279): the run of
output samples pushed onto restWav when the new grain's data directly
follows the previous grain's data. -/
def runVals (e : PlayEnv) (g : Grain) (rate bias nf : ℚ) : ℕ → ℕ → List ℚ
  | 0, _ => []
  | fuel + 1, i =>
    let x := (i : ℚ) * rate + bias
    if truncI x < g.stop - g.start then
      grainSample e g (truncI x) (x - ((truncI x : ℤ) : ℚ)) nf
        :: runVals e g rate bias nf fuel (i + 1)
    else []

/-- Crossfade loop (src/app.cpp lines 283-308): blends the resampled run
backward into the residual tail over the overlap region, extending restWav
by one slot whenever `wavIdx` reaches its end (`resize`, line 296, counted
in `sz`); inside the overlap the old and new samples are combined with the
equal-power weights, past it the new sample overwrites. Returns the updated
restWav and the number of appended samples. -/
def xfadeGo (e : PlayEnv) (g : Grain) (rate bias nf ovl : ℚ) :
    ℕ → ℕ → ℕ → List ℚ → ℕ → List ℚ × ℕ
  | 0, _, _, rw, sz => (rw, sz)
  | fuel + 1, i, wavIdx, rw, sz =>
    let x := (i : ℚ) * rate + bias
    let idx := truncI x
    if idx < g.stop - g.start then
      let v := grainSample e g idx (x - ((idx : ℤ) : ℚ)) nf
      let rw1 := if rw.length ≤ wavIdx then rw ++ [0] else rw
      let sz1 := if rw.length ≤ wavIdx then sz + 1 else sz
      let rw2 :=
        if ((g.stop - g.start : ℤ) : ℚ) * ovl < ((idx : ℤ) : ℚ) then rw1.set wavIdx v
        else
          rw1.set wavIdx
            (e.sinq (1 - ((idx : ℤ) : ℚ) / (((g.stop - g.start : ℤ) : ℚ) * ovl))
                * rw1.getD wavIdx 0
              + e.sinq (((idx : ℤ) : ℚ) / (((g.stop - g.start : ℤ) : ℚ) * ovl)) * v)
      xfadeGo e g rate bias nf ovl fuel (i + 1) (wavIdx + 1) rw2 sz1
    else (rw, sz)

/-- Production loop of the playing branch (src/app.cpp lines 232-311),
fuel-indexed: while `restWav.size() < dur + preferredGrainSize` (1500),
resolve the temporary cursor to a sample (plus the residual size captured
once as sampleOffset, line 230), look up the grain, resample and append
(contiguous case) or crossfade (discontinuity), and advance the temporary
cursor by the samples produced; a lookup miss returns immediately with the
missed flag set (lines 239-243). Returns (missed, restWav, prevGrain). -/
def playLoop (e : PlayEnv) (sampleOffset dur : ℕ) (bias : ℚ) :
    ℕ → ℚ → List ℚ → ℤ × ℤ → ℕ → Bool × List ℚ × (ℤ × ℤ)
  | 0, _, rw, pg, _ => (false, rw, pg)
  | fuel + 1, tmp, rw, pg, c =>
    if rw.length < dur + 1500 then
      let sample := time2Sample e.sr e.markers tmp + (sampleOffset : ℤ)
      let rate := e.pow2 (time2PitchBend e.sr e.markers e.dataSize tmp)
      match lowerBound e.grains sample with
      | none => (true, rw, pg)
      | some g =>
        let nf := nextGrainFirstSample e g rate bias tmp
        if g.start = pg.2 then
          let out := runVals e g rate bias nf e.ifuel 0
          playLoop e sampleOffset dur bias fuel (tmp + (out.length : ℚ) / e.sr)
            (rw ++ out) (g.start, g.stop) c
        else
          let ovl := e.ov c
          let grainPart := truncI (((g.stop - g.start : ℤ) : ℚ) / rate * ovl)
          let wavIdx0 : ℕ :=
            if grainPart < (rw.length : ℤ) then ((rw.length : ℤ) - grainPart).toNat
            else 0
          let res := xfadeGo e g rate bias nf ovl e.ifuel 0 wavIdx0 rw 0
          playLoop e sampleOffset dur bias fuel (tmp + (res.2 : ℚ) / e.sr)
            res.1 (g.start, g.stop) (c + 1)
    else (false, rw, pg)

/-- Zero-fill of the Stopped branch (src/app.cpp lines 217-218): the output
buffer is zeroed on [0, dur). -/
def zeroFill (w : List ℚ) (dur : ℕ) : List ℚ :=
  List.replicate (min dur w.length) 0 ++ w.drop dur

/-- One step of the Stopped-branch fade loop (src/app.cpp lines 219-223):
after the zero-fill the pointer sits one past the end, so step i reads and
scales stream index dur - i by i/100; accesses outside the delivered list
are dropped in this model (claim C10 records that the code does perform the
out-of-range access at index dur). -/
def fadeStep (dur : ℕ) (w : List ℚ) (i : ℕ) : List ℚ :=
  if (dur : ℤ) - i < 0 ∨ (w.length : ℤ) ≤ (dur : ℤ) - i then w
  else
    w.set ((dur : ℤ) - i).toNat
      (w.getD ((dur : ℤ) - i).toNat 0 * ((i : ℚ) / 100))

/-- Output buffer contents after the Stopped branch (src/app.cpp lines
216-223): zero-fill then the 100-step fade. -/
def stoppedFill (w : List ℚ) (dur : ℕ) : List ℚ :=
  (List.range 100).foldl (fadeStep dur) (zeroFill w dur)

/-- The playback callback `App::playback` (src/app.cpp lines 209-327) on a
`dur`-sample output buffer `w` (the SDL stream contents), returning the new
state and the buffer contents after the call: cursor out of [0, duration)
stops playback; when stopped the output is zero-filled and faded and the
residual is cleared; otherwise the production loop runs, a lookup miss
stops playback and returns with the output untouched, and on normal exit up
to `dur` residual samples are delivered, removed from the residual, and the
cursor advances by exactly the delivered count. -/
def playback (e : PlayEnv) (fuel : ℕ) (st : PlayState) (w : List ℚ) (dur : ℕ) :
    PlayState × List ℚ :=
  let playing :=
    if st.cursorSec < 0 ∨ duration e.sr e.markers e.dataSize ≤ st.cursorSec then false
    else st.isPlaying
  if playing = false then
    ({ st with isPlaying := false, restWav := [] }, stoppedFill w dur)
  else
    match playLoop e st.restWav.length dur st.bias fuel st.cursorSec st.restWav
      st.prevGrain 0 with
    | (true, rw, pg) =>
      ({ st with isPlaying := false, restWav := rw, prevGrain := pg }, w)
    | (false, rw, pg) =>
      if rw.isEmpty then ({ st with restWav := rw, prevGrain := pg }, w)
      else
        let sz := min rw.length dur
        ({ st with
            restWav := rw.drop sz
            prevGrain := pg
            cursorSec := st.cursorSec + (sz : ℚ) / e.sr },
          w.mapIdx fun i v => if i < sz then rw.getD i 0 else v)

/-- Helper: when the grain index is empty, the first production iteration
misses and the loop returns with the missed flag, the accumulated residual
and the previous-grain span unchanged. -/
theorem playLoop_miss (e : PlayEnv) (so dur : ℕ) (bias : ℚ) (fuel : ℕ) (tmp : ℚ)
    (rw : List ℚ) (pg : ℤ × ℤ) (c : ℕ) (hlen : rw.length < dur + 1500)
    (hg : e.grains = []) :
    playLoop e so dur bias (fuel + 1) tmp rw pg c = (true, rw, pg) := by
  conv_lhs => unfold playLoop
  rw [if_pos hlen, hg]
  rfl

/-- Helper: a Stopped-state callback zero-fills and fades the output and
clears the residual. -/
theorem playback_stopped (e : PlayEnv) (fuel : ℕ) (st : PlayState) (w : List ℚ)
    (dur : ℕ) (hp : st.isPlaying = false) :
    playback e fuel st w dur
      = ({ st with isPlaying := false, restWav := [] }, stoppedFill w dur) := by
  unfold playback
  dsimp only
  rw [hp, ite_self]
  rw [if_pos rfl]

/-- Helper: the zero-fill leaves every delivered slot zero. -/
theorem zeroFill_getD (w : List ℚ) (dur : ℕ) (j : ℕ) (hj : j < dur) :
    (zeroFill w dur).getD j 0 = 0 := by
  unfold zeroFill
  rw [List.getD_eq_getElem?_getD]
  by_cases hw : j < w.length
  · have hmin : j < min dur w.length := lt_min hj hw
    rw [List.getElem?_append_left (by simpa using hmin), List.getElem?_replicate,
      if_pos hmin]
    rfl
  · have hlen : (List.replicate (min dur w.length) 0 ++ List.drop dur w).length ≤ j := by
      simp only [List.length_append, List.length_replicate, List.length_drop]
      omega
    rw [List.getElem?_eq_none hlen]
    rfl

/-- Helper: each fade step keeps every delivered slot zero. -/
theorem fadeStep_getD (dur : ℕ) (w : List ℚ) (i : ℕ)
    (hz : ∀ j < dur, w.getD j 0 = 0) :
    ∀ j < dur, (fadeStep dur w i).getD j 0 = 0 := by
  intro j hj
  unfold fadeStep
  by_cases hc : (dur : ℤ) - i < 0 ∨ (w.length : ℤ) ≤ (dur : ℤ) - i
  · rw [if_pos hc]
    exact hz j hj
  · rw [if_neg hc]
    push_neg at hc
    by_cases hij : ((dur : ℤ) - i).toNat = j
    · have hlt : ((dur : ℤ) - i).toNat < w.length := by omega
      have h0 : w.getD j 0 = 0 := hz j hj
      rw [List.getD_eq_getElem?_getD, hij, List.getElem?_set_self (hij ▸ hlt), h0,
        zero_mul]
      rfl
    · rw [List.getD_eq_getElem?_getD, List.getElem?_set_ne hij,
        ← List.getD_eq_getElem?_getD]
      exact hz j hj

/-- Helper: the Stopped-branch output is silent on the whole delivered
range. -/
theorem stoppedFill_getD (w : List ℚ) (dur : ℕ) (j : ℕ) (hj : j < dur) :
    (stoppedFill w dur).getD j 0 = 0 := by
  unfold stoppedFill
  have main : ∀ (l : List ℕ) (acc : List ℚ), (∀ k < dur, acc.getD k 0 = 0) →
      ∀ k < dur, (l.foldl (fadeStep dur) acc).getD k 0 = 0 := by
    intro l
    induction l with
    | nil =>
      intro acc h k hk
      exact h k hk
    | cons a t ih =>
      intro acc h k hk
      exact ih (fadeStep dur acc a) (fadeStep_getD dur acc a h) k hk
  exact main (List.range 100) (zeroFill w dur) (fun k hk => zeroFill_getD w dur k hk) j hj

/-- C9 (amended): when the grain lookup misses (here: the grain index is
empty) during a playing callback, the engine transitions to Stopped and
returns at once — the output buffer is not written and the residual is left
exactly as accumulated (not corrupted, but also not delivered); every
subsequent Stopped-state callback then clears the whole residual in a
single call, discarding (not delivering) its samples, and outputs silence
on the delivered range. -/
theorem c9_lookup_miss_stop (e : PlayEnv) (fuel : ℕ) (st : PlayState) (w : List ℚ)
    (dur : ℕ) (hg : e.grains = []) (hp : st.isPlaying = true)
    (h0 : 0 ≤ st.cursorSec)
    (hd : st.cursorSec < duration e.sr e.markers e.dataSize)
    (hrw : st.restWav.length < dur + 1500) (hfuel : 1 ≤ fuel) :
    playback e fuel st w dur = ({ st with isPlaying := false }, w) ∧
    (∀ (st2 : PlayState) (w2 : List ℚ), st2.isPlaying = false →
      playback e fuel st2 w2 dur
        = ({ st2 with isPlaying := false, restWav := [] }, stoppedFill w2 dur)) ∧
    (∀ (w2 : List ℚ) (j : ℕ), j < dur → (stoppedFill w2 dur).getD j 0 = 0) := by
  refine ⟨?_, fun st2 w2 hp2 => playback_stopped e fuel st2 w2 dur hp2,
    fun w2 j hj => stoppedFill_getD w2 dur j hj⟩
  obtain ⟨n, rfl⟩ : ∃ n, fuel = n + 1 := ⟨fuel - 1, by omega⟩
  unfold playback
  dsimp only
  have hcond : ¬ (st.cursorSec < 0 ∨ duration e.sr e.markers e.dataSize ≤ st.cursorSec) := by
    push_neg
    exact ⟨h0, hd⟩
  rw [if_neg hcond, hp]
  rw [if_neg (by simp : ¬ (true = false))]
  rw [playLoop_miss e st.restWav.length dur st.bias n st.cursorSec st.restWav
    st.prevGrain 0 hrw hg]

/-- Environment of the concrete C9 instance: sampleRate 10, no markers, 101
samples (duration 10 s), empty grain index, unit resample rate. -/
def cE : PlayEnv := ⟨10, [], 101, fun _ => 0, [], fun _ => 1, fun _ => 0, fun _ => 7 / 10, 10⟩

/-- Playback state of the concrete C9 instance: playing at cursor 1 s with
one not-yet-delivered residual sample of value 5. -/
def cSt : PlayState := ⟨1, true, [5], 0, (0, 0)⟩

/-- Output buffer of the concrete C9 instance, pre-filled with 9s to detect
writes. -/
def cW : List ℚ := [9, 9, 9, 9]

set_option maxRecDepth 8000 in
/-- C9 counterexample: in the concrete instance the playing callback hits
the lookup miss, stops, and returns with the output buffer untouched (still
all 9s) and the residual still holding the sample 5; the next Stopped-state
callback discards the residual (clears it without delivering) and emits
silence. The accumulated residual sample 5 is therefore never delivered to
the output, contrary to the claim. -/
theorem c9_residual_not_delivered :
    (playback cE 1 cSt cW 4 = ({ cSt with isPlaying := false }, cW)) ∧
    ((playback cE 1 { cSt with isPlaying := false } cW 4).1.restWav = []) ∧
    (∀ j, j < 4 → ((playback cE 1 { cSt with isPlaying := false } cW 4).2).getD j 0 = 0) ∧
    cSt.restWav = [5] ∧ cW = [9, 9, 9, 9] := by
  have hdur : duration cE.sr cE.markers cE.dataSize = 10 := by
    show duration 10 [] 101 = 10
    rw [duration, sample2Time_nil]
    norm_num
  refine ⟨?_, ?_, ?_, rfl, rfl⟩
  · unfold playback
    dsimp only
    have hcond : ¬ (cSt.cursorSec < 0 ∨
        duration cE.sr cE.markers cE.dataSize ≤ cSt.cursorSec) := by
      rw [hdur]
      push_neg
      constructor
      · show (0 : ℚ) ≤ 1
        norm_num
      · show (1 : ℚ) < 10
        norm_num
    rw [if_neg hcond]
    rw [show cSt.isPlaying = true from rfl]
    rw [if_neg (by simp : ¬ (true = false))]
    rw [playLoop_miss cE cSt.restWav.length 4 cSt.bias 0 cSt.cursorSec cSt.restWav
      cSt.prevGrain 0 (by norm_num [cSt]) rfl]
  · rw [playback_stopped cE 1 { cSt with isPlaying := false } cW 4 rfl]
  · intro j hj
    rw [playback_stopped cE 1 { cSt with isPlaying := false } cW 4 rfl]
    exact stoppedFill_getD cW 4 j hj

/-- C9 witness: the amended theorem applied to the concrete instance. -/
theorem c9_lookup_miss_stop_witness :
    playback cE 1 cSt cW 4 = ({ cSt with isPlaying := false }, cW) :=
  (c9_lookup_miss_stop cE 1 cSt cW 4 rfl rfl (by norm_num [cSt])
    (by
      show (1 : ℚ) < duration 10 [] 101
      rw [duration, sample2Time_nil]
      norm_num)
    (by norm_num [cSt]) (by norm_num)).1

/-- Stream indices accessed by the Stopped branch of `App::playback`
(src/app.cpp lines 216-223): the zero-fill loop `for (; dur > 0; --dur,
++w) *w = 0;` writes indices 0..dur-1 and leaves `w` one past the end of
the buffer, so the fade loop `for (int i = 0; i < 100; ++i) { *w *= .01 *
i; --w; }` reads and writes stream index dur - i for i = 0..99. -/
def stoppedAccessIndices (dur : ℕ) : List ℤ :=
  ((List.range dur).map fun i => (i : ℤ)) ++ ((List.range 100).map fun i => (dur : ℤ) - i)

set_option maxRecDepth 100000 in
/-- C10: the fade loop of the Stopped branch accesses the output stream out
of bounds: for the configured 1024-sample buffer its first iteration (i =
0) touches index 1024 = dur, one past the last valid index, and for a
50-sample request its last iteration (i = 99) touches index -49, before the
buffer. The claim that every access lies within [0, dur) is false of the
code; the intended memory safety makes this a code bug. -/
theorem c10_stopped_fade_out_of_bounds :
    ((1024 : ℤ) ∈ stoppedAccessIndices 1024 ∧ ¬ ((1024 : ℤ) < 1024)) ∧
      ((-49 : ℤ) ∈ stoppedAccessIndices 50 ∧ ¬ ((0 : ℤ) ≤ -49)) := by
  refine ⟨⟨?_, by norm_num⟩, ⟨?_, by norm_num⟩⟩
  · decide
  · decide
